import Mathlib

/-
Verification of the core renaming logic of `general.py` (general-ai-renamer).

The development shallowly embeds the pure and stateful parts of the program:

* the filename sanitizer (`re.sub(r'[^\w\s-]', '', title).strip()
  .replace(' ', '_').replace('-', '_')`, lines 194 and 277), modelled over
  `List Char` with an ASCII model of the regex classes `\w` and `\s`;
* the conflict-resolving rename loop (lines 199-205 and 282-288);
* the single-file recovery flow `retry_failed_file` (lines 159-222), with the
  filesystem modelled as an association list from names to file identities and
  external effects (spontaneous `os.rename` failures, the remote title request)
  supplied by oracles;
* the batch request retry loop of `get_batch_info_from_images` (lines 117-157),
  with the per-attempt outcome supplied by an oracle;
* the directory orchestrator `rename_images_in_directory` (lines 225-334).

Python's `time.sleep` calls are recorded as accumulated delay numbers, and the
remote service, image decoding and spontaneous filesystem errors are oracles,
since they are external to the program.
-/

/-! ### Constants of `general.py` (lines 22-28) -/

def IMAGE_EXTENSIONS : List String := [".png", ".jpg", ".jpeg", ".webp"]

def PROCESSED_SUFFIX : String := "_DESC"

def BATCH_SIZE : Nat := 10

def MAX_RETRIES : Nat := 3

def RETRY_DELAY : Nat := 10

/-! ### Decimal rendering of the conflict counter

The rename loops build `f"{new_base_name}_{counter}{ext}"`; `natRepr` models
Python's decimal `str(counter)`.  It is written with explicit fuel so that it
reduces inside the kernel. -/

def toDigitsRev : Nat → Nat → List Char
  | 0, _ => []
  | f + 1, n =>
    if n < 10 then [Nat.digitChar n]
    else Nat.digitChar (n % 10) :: toDigitsRev f (n / 10)

/-- Decimal rendering of a natural number, as Python's `str`. -/
def natRepr (n : Nat) : String := ⟨(toDigitsRev (n + 1) n).reverse⟩

/-- Decode a little-endian digit-character list; used only to prove that
`natRepr` is injective. -/
def decodeRev : List Char → Nat
  | [] => 0
  | c :: cs => (c.toNat - 48) + 10 * decodeRev cs

theorem decode_toDigitsRev : ∀ f n, n < f → decodeRev (toDigitsRev f n) = n := by
  intro f
  induction f with
  | zero => intro n h; omega
  | succ f ih =>
    intro n h
    have hdigit : ∀ m : Nat, m < 10 → (Nat.digitChar m).toNat - 48 = m := by decide
    by_cases h10 : n < 10
    · simp only [toDigitsRev, if_pos h10, decodeRev]
      rw [hdigit n h10]
      omega
    · simp only [toDigitsRev, if_neg h10, decodeRev]
      have hd : n / 10 < f := by omega
      rw [ih _ hd, hdigit (n % 10) (by omega)]
      omega

theorem string_ext {a b : String} (h : a.data = b.data) : a = b := by
  cases a; cases b; cases h; rfl

theorem natRepr_injective : Function.Injective natRepr := by
  intro a b h
  have hdata : (toDigitsRev (a + 1) a).reverse = (toDigitsRev (b + 1) b).reverse :=
    congrArg String.data h
  have h2 : toDigitsRev (a + 1) a = toDigitsRev (b + 1) b :=
    List.reverse_injective hdata
  have ha := decode_toDigitsRev (a + 1) a (Nat.lt_succ_self a)
  have hb := decode_toDigitsRev (b + 1) b (Nat.lt_succ_self b)
  rw [← ha, ← hb, h2]

/-! ### The conflict-resolving rename target search (lines 282-288 / 199-205)

```
counter = 1
while os.path.exists(new_file_path):
    new_filename = f"{new_base_name}_{counter}{ext}"
    new_file_path = os.path.join(folder_path, new_filename)
    counter += 1
```

The sequence of candidate names tried is `base+ext`, `base+"_1"+ext`,
`base+"_2"+ext`, …; the loop stops at the first candidate absent from the
directory.  `chooseNewName` computes that first free candidate; the fuel
`existing.length + 1` is sufficient because the candidates are pairwise
distinct strings, so among the first `existing.length + 1` of them at least
one is not in the directory. -/

def candidateName (base ext : String) : Nat → String
  | 0 => base ++ ext
  | n + 1 => base ++ "_" ++ natRepr (n + 1) ++ ext

def searchFreeName (existing : List String) (base ext : String) : Nat → Nat → String
  | 0, n => candidateName base ext n
  | fuel + 1, n =>
    if candidateName base ext n ∈ existing then searchFreeName existing base ext fuel (n + 1)
    else candidateName base ext n

def chooseNewName (existing : List String) (base ext : String) : String :=
  searchFreeName existing base ext (existing.length + 1) 0

theorem data_candidate_zero (b e : String) :
    (candidateName b e 0).data = b.data ++ e.data := rfl

theorem data_candidate_succ (b e : String) (n : Nat) :
    (candidateName b e (n + 1)).data = b.data ++ ('_' :: ((natRepr (n + 1)).data ++ e.data)) := by
  show ((b ++ "_" ++ natRepr (n + 1) ++ e)).data = _
  have : (b ++ "_" ++ natRepr (n + 1) ++ e).data
      = ((b.data ++ "_".data) ++ (natRepr (n + 1)).data) ++ e.data := rfl
  rw [this]
  simp [List.append_assoc]

theorem candidateName_injective (b e : String) : Function.Injective (candidateName b e) := by
  intro m n h
  have hdata := congrArg String.data h
  match m, n with
  | 0, 0 => rfl
  | 0, n + 1 =>
    rw [data_candidate_zero, data_candidate_succ] at hdata
    have := List.append_cancel_left hdata
    have hlen := congrArg List.length this
    simp [List.length_append] at hlen
    omega
  | m + 1, 0 =>
    rw [data_candidate_zero, data_candidate_succ] at hdata
    have := List.append_cancel_left hdata
    have hlen := congrArg List.length this
    simp [List.length_append] at hlen
    omega
  | m + 1, n + 1 =>
    rw [data_candidate_succ, data_candidate_succ] at hdata
    have h1 := List.append_cancel_left hdata
    have h2 : (natRepr (m + 1)).data ++ e.data = (natRepr (n + 1)).data ++ e.data :=
      List.cons_injective h1
    have h3 : (natRepr (m + 1)).data = (natRepr (n + 1)).data :=
      List.append_cancel_right h2
    have h4 : natRepr (m + 1) = natRepr (n + 1) := string_ext h3
    have := natRepr_injective h4
    omega

theorem exists_free_candidate (existing : List String) (b e : String) :
    ∃ j, j < existing.length + 1 ∧ candidateName b e j ∉ existing := by
  by_contra hall
  push_neg at hall
  have hmaps : ∀ j ∈ Finset.range (existing.length + 1),
      candidateName b e j ∈ existing.toFinset := by
    intro j hj
    rw [List.mem_toFinset]
    exact hall j (Finset.mem_range.mp hj)
  have hinj : Set.InjOn (candidateName b e) (Finset.range (existing.length + 1)) :=
    fun x _ y _ hxy => candidateName_injective b e hxy
  have hcard := Finset.card_le_card_of_injOn (candidateName b e) hmaps hinj
  rw [Finset.card_range] at hcard
  have := existing.toFinset_card_le
  omega

theorem searchFreeName_spec (existing : List String) (b e : String) :
    ∀ fuel start,
      (∃ j, j < fuel ∧ candidateName b e (start + j) ∉ existing) →
      ∃ n, searchFreeName existing b e fuel start = candidateName b e (start + n) ∧
        candidateName b e (start + n) ∉ existing ∧
        ∀ m, m < n → candidateName b e (start + m) ∈ existing := by
  intro fuel
  induction fuel with
  | zero =>
    intro start ⟨j, hj, _⟩
    omega
  | succ fuel ih =>
    intro start ⟨j, hj, hfree⟩
    by_cases hmem : candidateName b e start ∈ existing
    · have hj0 : j ≠ 0 := by
        intro h0
        rw [h0, Nat.add_zero] at hfree
        exact hfree hmem
      obtain ⟨j', rfl⟩ := Nat.exists_eq_succ_of_ne_zero hj0
      have hrec : ∃ j, j < fuel ∧ candidateName b e (start + 1 + j) ∉ existing := by
        refine ⟨j', by omega, ?_⟩
        have : start + 1 + j' = start + (j' + 1) := by omega
        rw [this]
        exact hfree
      obtain ⟨n, heq, hnot, hmin⟩ := ih (start + 1) hrec
      refine ⟨n + 1, ?_, ?_, ?_⟩
      · simp only [searchFreeName, if_pos hmem]
        rw [heq]
        congr 1
        omega
      · have : start + (n + 1) = start + 1 + n := by omega
        rw [this]
        exact hnot
      · intro m hm
        match m with
        | 0 => simpa using hmem
        | m + 1 =>
          have : start + (m + 1) = start + 1 + m := by omega
          rw [this]
          exact hmin m (by omega)
    · exact ⟨0, by simp [searchFreeName, if_neg hmem], by simpa using hmem, by omega⟩

theorem chooseNewName_spec (existing : List String) (b e : String) :
    ∃ n, chooseNewName existing b e = candidateName b e n ∧
      candidateName b e n ∉ existing ∧
      ∀ m, m < n → candidateName b e m ∈ existing := by
  obtain ⟨j, hj, hfree⟩ := exists_free_candidate existing b e
  have h := searchFreeName_spec existing b e (existing.length + 1) 0
    ⟨j, hj, by simpa using hfree⟩
  obtain ⟨n, heq, hnot, hmin⟩ := h
  exact ⟨n, by simpa using heq, by simpa using hnot, fun m hm => by simpa using hmin m hm⟩

theorem chooseNewName_not_mem (existing : List String) (b e : String) :
    chooseNewName existing b e ∉ existing := by
  obtain ⟨n, heq, hnot, _⟩ := chooseNewName_spec existing b e
  rw [heq]
  exact hnot

theorem chooseNewName_eq_of (existing : List String) (b e : String) (n : Nat)
    (hfree : candidateName b e n ∉ existing)
    (hbusy : ∀ m, m < n → candidateName b e m ∈ existing) :
    chooseNewName existing b e = candidateName b e n := by
  obtain ⟨n', heq, hnot, hmin⟩ := chooseNewName_spec existing b e
  have : n' = n := by
    rcases Nat.lt_trichotomy n' n with h | h | h
    · exact absurd (hbusy n' h) hnot
    · exact h
    · exact absurd (hmin n h) hfree
  rw [heq, this]

/-- **C1.** The conflict-resolving renamer never overwrites an existing file:
for every directory state `existing` and every sanitized base name, the name
chosen by the counter loop (`base+"_DESC"+ext`, then `base+"_DESC_1"+ext`,
`base+"_DESC_2"+ext`, … with the counter starting at 1) is absent from the
directory at the moment it is selected, and it is the first candidate of that
strictly increasing sequence that is free (the loop terminates because the
candidates are pairwise distinct, so a finite directory cannot contain them
all). -/
theorem conflictRenamer_never_overwrites (existing : List String) (cleanedTitle ext : String) :
    chooseNewName existing (cleanedTitle ++ PROCESSED_SUFFIX) ext ∉ existing ∧
    ∃ n, chooseNewName existing (cleanedTitle ++ PROCESSED_SUFFIX) ext
        = candidateName (cleanedTitle ++ PROCESSED_SUFFIX) ext n ∧
      ∀ m, m < n → candidateName (cleanedTitle ++ PROCESSED_SUFFIX) ext m ∈ existing := by
  refine ⟨chooseNewName_not_mem _ _ _, ?_⟩
  obtain ⟨n, heq, _, hmin⟩ := chooseNewName_spec existing (cleanedTitle ++ PROCESSED_SUFFIX) ext
  exact ⟨n, heq, hmin⟩

/-! ### The naming sanitizer (lines 194 and 277)

```
cleaned_title = re.sub(r'[^\w\s-]', '', short_title).strip().replace(' ', '_').replace('-', '_')
```

The character classes `\w` and `\s` are modelled over ASCII: `isWordChar` is
alphanumeric-or-underscore, `isPySpace` is Python's six whitespace characters.
`filter keepChar` models the `re.sub` deletion, `stripChars` models `.strip()`
(leading and trailing whitespace removed), and the two `replaceChar` passes
model the two `str.replace` calls, each of which rewrites every occurrence
individually. -/

def isWordChar (c : Char) : Bool := c.isAlphanum || c = '_'

def isPySpace (c : Char) : Bool :=
  c = ' ' || c = '\t' || c = '\n' || c = '\r' || c = '\x0b' || c = '\x0c'

def keepChar (c : Char) : Bool := isWordChar c || isPySpace c || c = '-'

def stripChars (l : List Char) : List Char :=
  ((l.dropWhile isPySpace).reverse.dropWhile isPySpace).reverse

def replaceChar (a b : Char) (l : List Char) : List Char :=
  l.map fun c => if c = a then b else c

def sanitize (s : String) : String :=
  ⟨replaceChar '-' '_' (replaceChar ' ' '_' (stripChars (s.data.filter keepChar)))⟩

/-- The two successive single-character `str.replace` passes act pointwise. -/
def sepToUnderscore (c : Char) : Char :=
  if c = ' ' then '_' else if c = '-' then '_' else c

theorem replace_replace_eq_map (l : List Char) :
    replaceChar '-' '_' (replaceChar ' ' '_' l) = l.map sepToUnderscore := by
  simp only [replaceChar, List.map_map]
  apply List.map_congr_left
  intro c _
  simp only [Function.comp, sepToUnderscore]
  by_cases h1 : c = ' '
  · simp [h1]
  · simp [h1]

theorem sanitize_data (s : String) :
    (sanitize s).data = (stripChars (s.data.filter keepChar)).map sepToUnderscore := by
  show (replaceChar '-' '_' (replaceChar ' ' '_' (stripChars (s.data.filter keepChar)))) = _
  rw [replace_replace_eq_map]

theorem sep_ne_space (c : Char) : sepToUnderscore c ≠ ' ' := by
  unfold sepToUnderscore
  by_cases h1 : c = ' '
  · simp only [if_pos h1]; decide
  · simp only [if_neg h1]
    by_cases h2 : c = '-'
    · simp only [if_pos h2]; decide
    · simp only [if_neg h2]; exact h1

theorem sep_ne_hyphen (c : Char) : sepToUnderscore c ≠ '-' := by
  unfold sepToUnderscore
  by_cases h1 : c = ' '
  · simp only [if_pos h1]; decide
  · simp only [if_neg h1]
    by_cases h2 : c = '-'
    · simp only [if_pos h2]; decide
    · simp only [if_neg h2]; exact h2

theorem sep_fix (c : Char) (h1 : c ≠ ' ') (h2 : c ≠ '-') : sepToUnderscore c = c := by
  simp [sepToUnderscore, h1, h2]

theorem sep_idem (c : Char) : sepToUnderscore (sepToUnderscore c) = sepToUnderscore c :=
  sep_fix _ (sep_ne_space c) (sep_ne_hyphen c)

theorem sep_not_pySpace (c : Char) (h : isPySpace c = false) :
    isPySpace (sepToUnderscore c) = false := by
  unfold sepToUnderscore
  by_cases h1 : c = ' '
  · rw [h1] at h; exact absurd h (by decide)
  · simp only [if_neg h1]
    by_cases h2 : c = '-'
    · simp only [if_pos h2]; decide
    · simp only [if_neg h2]; exact h

theorem sep_keep (c : Char) (h : keepChar c = true) : keepChar (sepToUnderscore c) = true := by
  unfold sepToUnderscore
  by_cases h1 : c = ' '
  · simp only [if_pos h1]; decide
  · simp only [if_neg h1]
    by_cases h2 : c = '-'
    · simp only [if_pos h2]; decide
    · simp only [if_neg h2]; exact h

theorem mem_stripChars {c : Char} {l : List Char} (h : c ∈ stripChars l) : c ∈ l := by
  unfold stripChars at h
  rw [List.mem_reverse] at h
  have h1 : c ∈ (l.dropWhile isPySpace).reverse :=
    (List.dropWhile_suffix (p := isPySpace)).subset h
  rw [List.mem_reverse] at h1
  exact (List.dropWhile_suffix (p := isPySpace)).subset h1

theorem head?_dropWhile (p : Char → Bool) (l : List Char) :
    ∀ c ∈ (l.dropWhile p).head?, p c = false := by
  intro c hc
  cases hdw : l.dropWhile p with
  | nil => rw [hdw] at hc; simp at hc
  | cons a as =>
    rw [hdw] at hc
    simp only [List.head?] at hc
    cases hc
    have := List.head_dropWhile_not p l (by rw [hdw]; simp)
    simp only [hdw, List.head_cons] at this
    simpa using this

theorem dropWhile_eq_self_of_head? (p : Char → Bool) (l : List Char)
    (h : ∀ c ∈ l.head?, p c = false) : l.dropWhile p = l := by
  cases l with
  | nil => rfl
  | cons a as =>
    have := h a (by simp)
    simp [List.dropWhile, this]

theorem getLast?_dropWhile_of_ne_nil (p : Char → Bool) (x : List Char)
    (h : x.dropWhile p ≠ []) : (x.dropWhile p).getLast? = x.getLast? := by
  obtain ⟨pre, hpre⟩ := List.dropWhile_suffix (l := x) (p := p)
  conv_rhs => rw [← hpre]
  rw [List.getLast?_append]
  cases hgl : (x.dropWhile p).getLast? with
  | none => exact absurd (List.getLast?_eq_none_iff.mp hgl) h
  | some b => simp [Option.or]

theorem stripChars_head? (l : List Char) :
    ∀ c ∈ (stripChars l).head?, isPySpace c = false := by
  intro c hc
  unfold stripChars at hc
  rw [List.head?_reverse] at hc
  set x := (l.dropWhile isPySpace).reverse with hx
  have hne : x.dropWhile isPySpace ≠ [] := by
    intro hnil
    rw [hnil] at hc
    simp at hc
  rw [getLast?_dropWhile_of_ne_nil _ _ hne, hx, List.getLast?_reverse] at hc
  exact head?_dropWhile isPySpace _ c hc

theorem stripChars_getLast? (l : List Char) :
    ∀ c ∈ (stripChars l).getLast?, isPySpace c = false := by
  intro c hc
  unfold stripChars at hc
  rw [List.getLast?_reverse] at hc
  exact head?_dropWhile isPySpace _ c hc

theorem stripChars_eq_self (l : List Char)
    (h1 : ∀ c ∈ l.head?, isPySpace c = false)
    (h2 : ∀ c ∈ l.getLast?, isPySpace c = false) : stripChars l = l := by
  unfold stripChars
  rw [dropWhile_eq_self_of_head? _ _ h1]
  rw [dropWhile_eq_self_of_head? _ _ (by simpa using h2)]
  exact List.reverse_reverse l

theorem mem_sanitize_data {s : String} {c : Char} (h : c ∈ (sanitize s).data) :
    ∃ b, b ∈ stripChars (s.data.filter keepChar) ∧ c = sepToUnderscore b := by
  rw [sanitize_data] at h
  obtain ⟨b, hb, rfl⟩ := List.mem_map.mp h
  exact ⟨b, hb, rfl⟩

theorem sanitize_char_keep {s : String} {c : Char} (h : c ∈ (sanitize s).data) :
    keepChar c = true := by
  obtain ⟨b, hb, rfl⟩ := mem_sanitize_data h
  exact sep_keep b (List.mem_filter.mp (mem_stripChars hb)).2

theorem sanitize_char_fix {s : String} {c : Char} (h : c ∈ (sanitize s).data) :
    sepToUnderscore c = c := by
  obtain ⟨b, _, rfl⟩ := mem_sanitize_data h
  exact sep_idem b

theorem getLast?_map (f : Char → Char) (l : List Char) :
    (l.map f).getLast? = l.getLast?.map f := by
  rw [← List.head?_reverse, ← List.map_reverse, List.head?_map, List.head?_reverse]

theorem sanitize_head?_clean (s : String) :
    ∀ c ∈ (sanitize s).data.head?, isPySpace c = false := by
  intro c hc
  rw [sanitize_data, List.head?_map] at hc
  cases hh : (stripChars (s.data.filter keepChar)).head? with
  | none => rw [hh] at hc; simp at hc
  | some b =>
    rw [hh] at hc
    simp only [Option.map_some'] at hc
    cases hc
    exact sep_not_pySpace b (stripChars_head? _ b hh)

theorem sanitize_getLast?_clean (s : String) :
    ∀ c ∈ (sanitize s).data.getLast?, isPySpace c = false := by
  intro c hc
  rw [sanitize_data, getLast?_map] at hc
  cases hh : (stripChars (s.data.filter keepChar)).getLast? with
  | none => rw [hh] at hc; simp at hc
  | some b =>
    rw [hh] at hc
    simp only [Option.map_some'] at hc
    cases hc
    exact sep_not_pySpace b (stripChars_getLast? _ b hh)

/-- **C7.** The naming sanitizer is idempotent: sanitizing an
already-sanitized string returns it unchanged. -/
theorem sanitizer_idempotent : ∀ s : String, sanitize (sanitize s) = sanitize s := by
  intro s
  apply string_ext
  rw [sanitize_data (sanitize s)]
  rw [List.filter_eq_self.mpr (fun c hc => sanitize_char_keep hc)]
  rw [stripChars_eq_self _ (sanitize_head?_clean s) (sanitize_getLast?_clean s)]
  have hmap : (sanitize s).data.map sepToUnderscore = (sanitize s).data.map id :=
    List.map_congr_left (fun c hc => sanitize_char_fix hc)
  rw [hmap, List.map_id]

/-- **C6, counterexample.** The claim says runs of spaces and hyphens are
collapsed to a single separator character, which at the input `"a  b"` (a run
of two spaces) demands the output `"a_b"`; the code replaces each space by its
own underscore and yields `"a__b"`. -/
theorem sanitizer_collapse_cex : sanitize "a  b" = "a__b" ∧ sanitize "a  b" ≠ "a_b" :=
  ⟨rfl, by decide⟩

theorem sanitize_char_cases {s : String} {c : Char} (h : c ∈ (sanitize s).data) :
    (isWordChar c = true ∨ isPySpace c = true) ∧ c ≠ ' ' ∧ c ≠ '-' := by
  obtain ⟨b, hb, rfl⟩ := mem_sanitize_data h
  refine ⟨?_, sep_ne_space b, sep_ne_hyphen b⟩
  have hk : keepChar b = true := (List.mem_filter.mp (mem_stripChars hb)).2
  by_cases h1 : b = ' '
  · left; subst h1; decide
  · by_cases h2 : b = '-'
    · left; subst h2; decide
    · rw [sep_fix b h1 h2]
      unfold keepChar at hk
      simp only [Bool.or_eq_true] at hk
      rcases hk with (hw | hs) | hh
      · left; exact hw
      · right; exact hs
      · exact absurd (by simpa using hh) h2

/-- **C6, amended.** For every input title string, the sanitizer returns a
string containing only word characters and non-space whitespace characters
(every space and every hyphen is replaced by its own underscore, with no
collapsing of runs, so the output length equals the length of the stripped
filtered input); it is deterministic, never fails, and the empty input yields
the empty string. -/
theorem sanitizer_output_charset (s : String) :
    (∀ c ∈ (sanitize s).data, (isWordChar c = true ∨ isPySpace c = true) ∧ c ≠ ' ' ∧ c ≠ '-') ∧
    sanitize "" = "" ∧
    (sanitize s).length = (stripChars (s.data.filter keepChar)).length := by
  refine ⟨fun c hc => sanitize_char_cases hc, rfl, ?_⟩
  show (sanitize s).data.length = _
  rw [sanitize_data, List.length_map]

theorem sanitizer_output_charset_witness :
    (isWordChar '_' = true ∨ isPySpace '_' = true) ∧ '_' ≠ ' ' ∧ '_' ≠ '-' :=
  (sanitizer_output_charset "a b").1 '_' (by decide)

/-! ### `os.path.splitext` for plain filenames

The filenames handled by the program come from `os.listdir`, so they contain
no path separator; this models CPython's `splitext` for that case: split at
the last dot, unless every character before it is itself a dot (leading dots
of the basename are ignored). -/

def lastDotIdx : List Char → Option Nat
  | [] => none
  | c :: rest =>
    match lastDotIdx rest with
    | some i => some (i + 1)
    | none => if c = '.' then some 0 else none

def splitextChars (l : List Char) : List Char × List Char :=
  match lastDotIdx l with
  | none => (l, [])
  | some i => if (l.take i).all (fun c => c = '.') then (l, []) else (l.take i, l.drop i)

def splitext (s : String) : String × String :=
  (⟨(splitextChars s.data).1⟩, ⟨(splitextChars s.data).2⟩)

/-! ### Filesystem model

A directory is an association list from filename to an abstract file
identity; `os.rename` moves one entry.  Spontaneous failures of `os.rename`
(permissions and the like) are injected by the callers through a boolean
oracle indexed by the invocation count. -/

abbrev Dir := List (String × Nat)

def dirNames (d : Dir) : List String := d.map Prod.fst

def lookupName : Dir → String → Option Nat
  | [], _ => none
  | (n, i) :: d, x => if n = x then some i else lookupName d x

def removeName (d : Dir) (x : String) : Dir := d.filter (fun e => e.1 ≠ x)

/-- `os.rename(src, dst)`: fails iff the source entry does not exist; on
success the entry moves to `dst`, replacing any existing `dst` entry. -/
def renameFile (d : Dir) (src dst : String) : Option Dir :=
  match lookupName d src with
  | none => none
  | some i => some ((dst, i) :: removeName (removeName d src) dst)

def osRename (failNow : Bool) (d : Dir) (src dst : String) : Option Dir :=
  if failNow then none else renameFile d src dst

theorem lookup_mem {d : Dir} {x : String} {i : Nat} (h : lookupName d x = some i) :
    x ∈ dirNames d := by
  induction d with
  | nil => simp [lookupName] at h
  | cons e d ih =>
    obtain ⟨n, j⟩ := e
    simp only [lookupName] at h
    by_cases hn : n = x
    · subst hn; simp [dirNames]
    · rw [if_neg hn] at h
      simp only [dirNames, List.map_cons, List.mem_cons]
      exact Or.inr (ih h)

theorem lookup_of_not_mem {d : Dir} {x : String} (h : x ∉ dirNames d) :
    lookupName d x = none := by
  cases hl : lookupName d x with
  | none => rfl
  | some i => exact absurd (lookup_mem hl) h

theorem names_removeName_subset (d : Dir) (y : String) :
    dirNames (removeName d y) ⊆ dirNames d := by
  intro x hx
  simp only [dirNames, removeName, List.mem_map] at hx ⊢
  obtain ⟨e, he, rfl⟩ := hx
  exact ⟨e, List.mem_of_mem_filter he, rfl⟩

theorem removeName_of_not_mem {d : Dir} {y : String} (h : y ∉ dirNames d) :
    removeName d y = d := by
  apply List.filter_eq_self.mpr
  intro e he
  simp only [decide_eq_true_eq]
  intro hey
  exact h (by simp only [dirNames, List.mem_map]; exact ⟨e, he, hey⟩)

theorem removeName_cons_self (nm : String) (i : Nat) (d : Dir) :
    removeName ((nm, i) :: d) nm = removeName d nm := by
  simp [removeName, List.filter_cons]

theorem removeName_cons_ne {nm x : String} (i : Nat) (d : Dir) (h : nm ≠ x) :
    removeName ((nm, i) :: d) x = (nm, i) :: removeName d x := by
  simp [removeName, List.filter_cons, h]

theorem lookup_removeName_ne {d : Dir} {x y : String} (h : x ≠ y) :
    lookupName (removeName d y) x = lookupName d x := by
  induction d with
  | nil => rfl
  | cons e d ih =>
    obtain ⟨n, j⟩ := e
    by_cases hn : n = y
    · subst hn
      rw [removeName_cons_self]
      have hnx : n ≠ x := fun hh => h hh.symm
      simp only [lookupName, if_neg hnx]
      exact ih
    · rw [removeName_cons_ne j d hn]
      simp only [lookupName]
      by_cases hx : n = x
      · simp [hx]
      · rw [if_neg hx, if_neg hx]
        exact ih

theorem lookup_removeName_self (d : Dir) (y : String) :
    lookupName (removeName d y) y = none := by
  apply lookup_of_not_mem
  intro hy
  simp only [dirNames, removeName, List.mem_map] at hy
  obtain ⟨e, he, rfl⟩ := hy
  have := List.of_mem_filter he
  simp at this

/-! ### The single-file recovery flow `retry_failed_file` (lines 159-222)

The flow renames the file to `temp_retry_<uuid8><ext>`, requests one title,
then applies the sanitizer and the conflict-resolving renamer; on any failure
after the isolating rename it renames the temporary file back, and if that
rollback rename itself raises, the `except:` at line 220 reports the fatal
could-not-restore condition.  The uuid is the `tempId` parameter; the remote
request and image load are the `apiTitle` oracle (`none` = exception); the
`fsFail` oracle injects spontaneous `os.rename` errors, indexed by the number
of renames attempted so far in this call. -/

structure RetryEnv where
  fsFail : Nat → Bool
  apiTitle : Option String

inductive RetryOutcome
  | success
  | failedRestored
  | failedFatal
deriving DecidableEq

def tempName (originalFilename tempId : String) : String :=
  "temp_retry_" ++ tempId ++ (splitext originalFilename).2

/-- The Requesting step: `none` models an image-load/remote exception, and an
empty title triggers the `ValueError("API returned no short_title.")` branch
(lines 191-192), since an empty string is falsy in Python. -/
def requestedTitle (apiTitle : Option String) : Option String :=
  match apiTitle with
  | none => none
  | some t => if t = "" then none else some t

/-- Lines 216-222: rename the temporary file back to the original name; a
failure of this restoring rename is the distinct fatal report. -/
def rollbackStep (failNow : Bool) (d : Dir) (temp orig : String) : RetryOutcome × Dir :=
  match osRename failNow d temp orig with
  | none => (.failedFatal, d)
  | some d2 => (.failedRestored, d2)

def retryFailedFile (env : RetryEnv) (d : Dir) (originalFilename tempId : String) :
    RetryOutcome × Dir :=
  match osRename (env.fsFail 0) d originalFilename (tempName originalFilename tempId) with
  | none => rollbackStep (env.fsFail 1) d (tempName originalFilename tempId) originalFilename
  | some d1 =>
    match requestedTitle env.apiTitle with
    | none => rollbackStep (env.fsFail 1) d1 (tempName originalFilename tempId) originalFilename
    | some t =>
      match osRename (env.fsFail 1) d1 (tempName originalFilename tempId)
          (chooseNewName (dirNames d1) (sanitize t ++ PROCESSED_SUFFIX)
            (splitext originalFilename).2) with
      | none => rollbackStep (env.fsFail 2) d1 (tempName originalFilename tempId) originalFilename
      | some d2 => (.success, d2)

theorem isolate_step {d : Dir} {orig temp : String} {i : Nat}
    (horig : lookupName d orig = some i) (hfresh : temp ∉ dirNames d) :
    renameFile d orig temp = some ((temp, i) :: removeName d orig) := by
  have h1 : removeName (removeName d orig) temp = removeName d orig :=
    removeName_of_not_mem (fun hx => hfresh (names_removeName_subset d orig hx))
  simp [renameFile, horig, h1]

theorem rollback_step_ok {d : Dir} {orig temp : String} {i : Nat}
    (horig : lookupName d orig = some i) (hfresh : temp ∉ dirNames d)
    (hne : temp ≠ orig) :
    rollbackStep false ((temp, i) :: removeName d orig) temp orig
      = (.failedRestored, (orig, i) :: removeName d orig) := by
  have hlook : lookupName ((temp, i) :: removeName d orig) temp = some i := by
    simp [lookupName]
  have hrm1 : removeName ((temp, i) :: removeName d orig) temp = removeName d orig := by
    rw [removeName_cons_self]
    exact removeName_of_not_mem (fun hx => hfresh (names_removeName_subset d orig hx))
  simp only [rollbackStep, osRename, if_neg (by simp : ¬ (false = true)), renameFile, hlook]
  rw [hrm1]
  have hidem : removeName (removeName d orig) orig = removeName d orig := by
    apply removeName_of_not_mem
    intro hx
    simp only [dirNames, removeName, List.mem_map] at hx
    obtain ⟨e, he, rfl⟩ := hx
    have := List.of_mem_filter he
    simp at this
  rw [hidem]

/-- **C3.** In the single-file recovery flow, if the Requesting step (image
load, remote call, or title extraction) fails after the Isolating rename
succeeded, the flow restores the file: when the restoring rename works the
final directory state equals the initial one (the file is back under exactly
its original name) and the flow returns the ordinary failure outcome; only
when the restoring rename itself fails is the file left under the temporary
name, reported with the distinct fatal outcome. -/
theorem recovery_rollback (env : RetryEnv) (d : Dir) (orig tempId : String) (i : Nat)
    (horig : lookupName d orig = some i)
    (hfresh : tempName orig tempId ∉ dirNames d)
    (hreq : env.apiTitle = none ∨ env.apiTitle = some "")
    (hiso : env.fsFail 0 = false) :
    (env.fsFail 1 = false →
      (retryFailedFile env d orig tempId).1 = .failedRestored ∧
      ∀ x, lookupName (retryFailedFile env d orig tempId).2 x = lookupName d x) ∧
    (env.fsFail 1 = true →
      (retryFailedFile env d orig tempId).1 = .failedFatal ∧
      lookupName (retryFailedFile env d orig tempId).2 (tempName orig tempId) = some i ∧
      lookupName (retryFailedFile env d orig tempId).2 orig = none) := by
  have hne : tempName orig tempId ≠ orig := by
    intro h
    apply hfresh
    rw [h]
    exact lookup_mem horig
  have hreq' : requestedTitle env.apiTitle = none := by
    rcases hreq with h | h <;> simp [requestedTitle, h]
  have hflow : retryFailedFile env d orig tempId
      = rollbackStep (env.fsFail 1) ((tempName orig tempId, i) :: removeName d orig)
          (tempName orig tempId) orig := by
    unfold retryFailedFile
    rw [hiso]
    simp only [osRename, if_neg (by simp : ¬ (false = true))]
    rw [isolate_step horig hfresh, hreq']
  constructor
  · intro hroll
    rw [hflow, hroll, rollback_step_ok horig hfresh hne]
    refine ⟨rfl, fun x => ?_⟩
    by_cases hx : x = orig
    · subst hx
      simp [lookupName, horig]
    · simp only [lookupName, if_neg (fun hh : orig = x => hx hh.symm)]
      exact lookup_removeName_ne hx
  · intro hroll
    rw [hflow, hroll]
    simp only [rollbackStep, osRename, if_pos rfl]
    refine ⟨rfl, by simp [lookupName], ?_⟩
    simp only [lookupName, if_neg hne]
    exact lookup_removeName_self d orig

theorem recovery_rollback_witness :
    (retryFailedFile ⟨fun _ => false, none⟩ [("cat.jpg", 0)] "cat.jpg" "ab12cd34").1
        = RetryOutcome.failedRestored ∧
    lookupName (retryFailedFile ⟨fun _ => false, none⟩ [("cat.jpg", 0)] "cat.jpg" "ab12cd34").2
        "cat.jpg" = some 0 := by
  have h := recovery_rollback ⟨fun _ => false, none⟩ [("cat.jpg", 0)] "cat.jpg" "ab12cd34" 0
    (by decide) (by decide) (Or.inl rfl) rfl
  exact ⟨(h.1 rfl).1, ((h.1 rfl).2 "cat.jpg").trans (by decide)⟩

/-- **C9.** If the Isolating rename itself fails (the original file is
missing, or the rename call raises), the recovery flow returns failure for
that file and the filesystem state is unchanged: the flow moves nothing (the
rollback attempt in the shared `except:` block cannot move anything either,
since the temporary name does not exist). -/
theorem recovery_isolation_failure (env : RetryEnv) (d : Dir) (orig tempId : String)
    (hfresh : tempName orig tempId ∉ dirNames d)
    (hfail : lookupName d orig = none ∨ env.fsFail 0 = true) :
    retryFailedFile env d orig tempId = (.failedFatal, d) := by
  have hiso : osRename (env.fsFail 0) d orig (tempName orig tempId) = none := by
    rcases hfail with h | h
    · cases hf : env.fsFail 0 <;> simp [osRename, hf, renameFile, h]
    · simp [osRename, h]
  have hroll : osRename (env.fsFail 1) d (tempName orig tempId) orig = none := by
    cases hf : env.fsFail 1
    · simp [osRename, renameFile, lookup_of_not_mem hfresh]
    · simp [osRename]
  unfold retryFailedFile
  rw [hiso]
  simp only [rollbackStep]
  rw [hroll]

theorem recovery_isolation_failure_witness :
    retryFailedFile ⟨fun _ => false, none⟩ [] "cat.jpg" "ab12cd34"
      = (RetryOutcome.failedFatal, []) :=
  recovery_isolation_failure ⟨fun _ => false, none⟩ [] "cat.jpg" "ab12cd34"
    (by decide) (Or.inl rfl)

/-! ### The batch description retry loop `get_batch_info_from_images` (lines 117-157)

```
retries = 0
while retries < MAX_RETRIES:
    try: ... return result_map
    except APIError: retries += 1; if retries < MAX_RETRIES: sleep(RETRY_DELAY) else return None
    except (json.JSONDecodeError, AttributeError, KeyError): return None
    except Exception: return None
```

The per-attempt outcome (network call plus response parsing) is an oracle
indexed by the attempt number.  The loop is modelled with the remaining
allowed attempts as fuel (`fuel = MAX_RETRIES - retries`); the result records
the returned value, the number of attempts made, and the total seconds slept
between attempts. -/

inductive ApiAttempt
  | ok (m : List (String × String))
  | apiErr
  | parseErr
  | otherErr

def getBatchInfoAux (oracle : Nat → ApiAttempt) :
    Nat → Nat → Option (List (String × String)) × Nat × Nat
  | 0, _ => (none, 0, 0)
  | fuel + 1, attempt =>
    match oracle attempt with
    | .ok m => (some m, 1, 0)
    | .apiErr =>
      if fuel = 0 then (none, 1, 0)
      else
        match getBatchInfoAux oracle fuel (attempt + 1) with
        | (r, a, s) => (r, a + 1, s + RETRY_DELAY)
    | .parseErr => (none, 1, 0)
    | .otherErr => (none, 1, 0)

def getBatchInfo (oracle : Nat → ApiAttempt) : Option (List (String × String)) × Nat × Nat :=
  getBatchInfoAux oracle MAX_RETRIES 0

theorem getBatchInfoAux_all_api (oracle : Nat → ApiAttempt)
    (hall : ∀ j, oracle j = .apiErr) :
    ∀ fuel attempt, 1 ≤ fuel →
      getBatchInfoAux oracle fuel attempt = (none, fuel, (fuel - 1) * RETRY_DELAY) := by
  intro fuel
  induction fuel with
  | zero => intro attempt h; omega
  | succ fuel ih =>
    intro attempt _
    simp only [getBatchInfoAux, hall attempt]
    by_cases hf : fuel = 0
    · subst hf; simp
    · rw [if_neg hf, ih (attempt + 1) (by omega)]
      have harith : (fuel - 1) * RETRY_DELAY + RETRY_DELAY = (fuel + 1 - 1) * RETRY_DELAY := by
        have hf1 : fuel - 1 + 1 = fuel + 1 - 1 := by omega
        calc (fuel - 1) * RETRY_DELAY + RETRY_DELAY
            = (fuel - 1 + 1) * RETRY_DELAY := by ring
          _ = (fuel + 1 - 1) * RETRY_DELAY := by rw [hf1]
      simp only [harith]

theorem getBatchInfoAux_parse (oracle : Nat → ApiAttempt) :
    ∀ fuel attempt k, k < fuel →
      (∀ j, j < k → oracle (attempt + j) = .apiErr) →
      oracle (attempt + k) = .parseErr →
      getBatchInfoAux oracle fuel attempt = (none, k + 1, k * RETRY_DELAY) := by
  intro fuel
  induction fuel with
  | zero => intro attempt k hk; omega
  | succ fuel ih =>
    intro attempt k hk hapi hparse
    match k with
    | 0 =>
      simp only [Nat.add_zero] at hparse
      simp [getBatchInfoAux, hparse]
    | k + 1 =>
      have h0 : oracle attempt = .apiErr := by
        have := hapi 0 (by omega)
        simpa using this
      have hf : fuel ≠ 0 := by omega
      simp only [getBatchInfoAux, h0, if_neg hf]
      rw [ih (attempt + 1) k (by omega)
        (fun j hj => by
          have := hapi (j + 1) (by omega)
          have harith : attempt + (j + 1) = attempt + 1 + j := by omega
          rwa [harith] at this)
        (by
          have harith : attempt + (k + 1) = attempt + 1 + k := by omega
          rwa [harith] at hparse)]
      have harith2 : k * RETRY_DELAY + RETRY_DELAY = (k + 1) * RETRY_DELAY := by ring
      simp only [harith2]

theorem getBatchInfoAux_attempts_le (oracle : Nat → ApiAttempt) :
    ∀ fuel attempt, (getBatchInfoAux oracle fuel attempt).2.1 ≤ fuel := by
  intro fuel
  induction fuel with
  | zero => intro attempt; simp [getBatchInfoAux]
  | succ fuel ih =>
    intro attempt
    simp only [getBatchInfoAux]
    cases oracle attempt with
    | ok m => simp
    | apiErr =>
      by_cases hf : fuel = 0
      · simp [hf]
      · rw [if_neg hf]
        have := ih (attempt + 1)
        cases hres : getBatchInfoAux oracle fuel (attempt + 1) with
        | mk r rest =>
          obtain ⟨a, s⟩ := rest
          rw [hres] at this
          simpa using Nat.add_le_add_right this 1
    | parseErr => simp
    | otherErr => simp

/-- **C4.** The batch description flow retries only transient remote-service
errors (`APIError`), up to `MAX_RETRIES = 3` attempts with a fixed
`RETRY_DELAY = 10`-second sleep between consecutive attempts, and returns the
batch-failure signal `none` after exhausting the retries (three attempts, two
ten-second sleeps); a structural parse failure, after any number of
transient-error attempts before it, is never retried and immediately returns
the batch-failure signal; no run makes more than `MAX_RETRIES` attempts. -/
theorem batchFlow_retry_policy :
    MAX_RETRIES = 3 ∧ RETRY_DELAY = 10 ∧
    (∀ oracle : Nat → ApiAttempt, (∀ j, oracle j = .apiErr) →
      getBatchInfo oracle = (none, MAX_RETRIES, (MAX_RETRIES - 1) * RETRY_DELAY)) ∧
    (∀ (oracle : Nat → ApiAttempt) (k : Nat), k < MAX_RETRIES →
      (∀ j, j < k → oracle j = .apiErr) → oracle k = .parseErr →
      getBatchInfo oracle = (none, k + 1, k * RETRY_DELAY)) ∧
    (∀ oracle : Nat → ApiAttempt, (getBatchInfo oracle).2.1 ≤ MAX_RETRIES) := by
  refine ⟨rfl, rfl, ?_, ?_, ?_⟩
  · intro oracle hall
    exact getBatchInfoAux_all_api oracle hall MAX_RETRIES 0 (by decide)
  · intro oracle k hk hapi hparse
    exact getBatchInfoAux_parse oracle MAX_RETRIES 0 k hk
      (fun j hj => by simpa using hapi j hj) (by simpa using hparse)
  · intro oracle
    exact getBatchInfoAux_attempts_le oracle MAX_RETRIES 0

theorem batchFlow_retry_policy_witness :
    getBatchInfo (fun _ => ApiAttempt.apiErr) = (none, 3, 20) ∧
    getBatchInfo (fun _ => ApiAttempt.parseErr) = (none, 1, 0) := by
  constructor
  · exact (batchFlow_retry_policy.2.2.1 (fun _ => ApiAttempt.apiErr) (fun _ => rfl)).trans rfl
  · exact (batchFlow_retry_policy.2.2.2.1 (fun _ => ApiAttempt.parseErr) 0 (by decide)
      (fun j hj => absurd hj (by omega)) rfl).trans rfl

/-! ### String helpers for the orchestrator

`isEligible` models the scan filter of line 230-233:
`f.lower().endswith(IMAGE_EXTENSIONS) and PROCESSED_SUFFIX not in f`. -/

def startsWithChars : List Char → List Char → Bool
  | [], _ => true
  | _ :: _, [] => false
  | a :: as, b :: bs => a = b && startsWithChars as bs

def hasSubChars (needle : List Char) : List Char → Bool
  | [] => needle.isEmpty
  | c :: rest => startsWithChars needle (c :: rest) || hasSubChars needle rest

def strToLower (s : String) : String := ⟨s.data.map Char.toLower⟩

def strEndsWith (s suffixStr : String) : Bool :=
  startsWithChars suffixStr.data.reverse s.data.reverse

def isEligible (f : String) : Bool :=
  (IMAGE_EXTENSIONS.any fun e => strEndsWith (strToLower f) e) &&
  ! hasSubChars PROCESSED_SUFFIX.data f.data

/-! ### The deduplicated, sorted failure list (line 315)

`unique_failed_files = sorted(list(set(failed_files_for_retry)))`: duplicates
are removed and the result is sorted in ascending code-point lexicographic
order (Python compares strings by code point).  `dedupLast` keeps one copy of
each value (which copy is irrelevant, since the list is sorted afterwards and
deduplicated values are compared only by equality). -/

def charListLe : List Char → List Char → Bool
  | [], _ => true
  | _ :: _, [] => false
  | a :: as, b :: bs =>
    if a < b then true
    else if b < a then false
    else charListLe as bs

def stringLe (a b : String) : Bool := charListLe a.data b.data

def insertSorted (x : String) : List String → List String
  | [] => [x]
  | y :: ys => if stringLe x y then x :: y :: ys else y :: insertSorted x ys

def sortStrings : List String → List String
  | [] => []
  | x :: xs => insertSorted x (sortStrings xs)

def dedupLast : List String → List String
  | [] => []
  | x :: xs => if x ∈ xs then dedupLast xs else x :: dedupLast xs

def uniqueFailedFiles (l : List String) : List String := sortStrings (dedupLast l)

theorem mem_dedupLast (l : List String) (x : String) : x ∈ dedupLast l ↔ x ∈ l := by
  induction l with
  | nil => rfl
  | cons y ys ih =>
    by_cases hy : y ∈ ys
    · simp only [dedupLast, if_pos hy, ih, List.mem_cons]
      constructor
      · exact Or.inr
      · rintro (rfl | h)
        · exact hy
        · exact h
    · simp only [dedupLast, if_neg hy, List.mem_cons, ih]

theorem nodup_dedupLast (l : List String) : (dedupLast l).Nodup := by
  induction l with
  | nil => exact List.nodup_nil
  | cons y ys ih =>
    by_cases hy : y ∈ ys
    · simpa only [dedupLast, if_pos hy] using ih
    · simp only [dedupLast, if_neg hy]
      exact List.Nodup.cons (fun h => hy ((mem_dedupLast ys y).mp h)) ih

theorem mem_insertSorted (x y : String) (l : List String) :
    y ∈ insertSorted x l ↔ y = x ∨ y ∈ l := by
  induction l with
  | nil => simp [insertSorted]
  | cons z zs ih =>
    by_cases h : stringLe x z
    · simp [insertSorted, if_pos h, List.mem_cons]
    · simp only [insertSorted, if_neg h, List.mem_cons, ih]
      tauto

theorem mem_sortStrings (l : List String) (y : String) : y ∈ sortStrings l ↔ y ∈ l := by
  induction l with
  | nil => rfl
  | cons z zs ih =>
    simp only [sortStrings, mem_insertSorted, List.mem_cons, ih]

theorem nodup_insertSorted (x : String) (l : List String) (hx : x ∉ l) (hl : l.Nodup) :
    (insertSorted x l).Nodup := by
  induction l with
  | nil => simp [insertSorted]
  | cons z zs ih =>
    by_cases h : stringLe x z
    · simp only [insertSorted, if_pos h]
      exact List.Nodup.cons (by simpa using hx) hl
    · simp only [insertSorted, if_neg h]
      refine List.Nodup.cons ?_ (ih (fun hmem => hx (List.mem_cons_of_mem z hmem))
        (List.Nodup.of_cons hl))
      intro hz
      rw [mem_insertSorted] at hz
      rcases hz with rfl | hz
      · exact hx (List.mem_cons_self z zs)
      · exact (List.nodup_cons.mp hl).1 hz

theorem nodup_sortStrings (l : List String) (hl : l.Nodup) : (sortStrings l).Nodup := by
  induction l with
  | nil => exact List.nodup_nil
  | cons z zs ih =>
    simp only [sortStrings]
    exact nodup_insertSorted z (sortStrings zs)
      (fun h => (List.nodup_cons.mp hl).1 ((mem_sortStrings zs z).mp h))
      (ih (List.Nodup.of_cons hl))

theorem charListLe_total : ∀ a b : List Char, charListLe a b = true ∨ charListLe b a = true := by
  intro a
  induction a with
  | nil => intro b; left; rfl
  | cons x xs ih =>
    intro b
    cases b with
    | nil => right; rfl
    | cons y ys =>
      by_cases h1 : x < y
      · left; simp [charListLe, h1]
      · by_cases h2 : y < x
        · right; simp [charListLe, h2, lt_asymm h2]
        · rcases ih ys with h | h
          · left; simp [charListLe, h1, h2, h]
          · right; simp [charListLe, h1, h2, h]

theorem charListLe_trans :
    ∀ a b c : List Char, charListLe a b = true → charListLe b c = true →
      charListLe a c = true := by
  intro a
  induction a with
  | nil => intro b c _ _; rfl
  | cons x xs ih =>
    intro b c hab hbc
    cases b with
    | nil => simp [charListLe] at hab
    | cons y ys =>
      cases c with
      | nil => simp [charListLe] at hbc
      | cons z zs =>
        simp only [charListLe] at hab hbc ⊢
        by_cases hxy : x < y
        · -- x < y; combine with y ≤ z
          by_cases hyz : y < z
          · simp [if_pos (lt_trans hxy hyz)]
          · by_cases hzy : z < y
            · simp [charListLe, hzy, lt_asymm hzy] at hbc
            · have : y = z := le_antisymm (not_lt.mp hzy) (not_lt.mp hyz)
              subst this
              simp [hxy]
        · by_cases hyx : y < x
          · simp [hxy, hyx] at hab
          · have hxey : x = y := le_antisymm (not_lt.mp hyx) (not_lt.mp hxy)
            subst hxey
            rw [if_neg hxy, if_neg hyx] at hab
            by_cases hyz : x < z
            · simp [hyz]
            · by_cases hzy : z < x
              · simp [hzy, lt_asymm hzy] at hbc
              · rw [if_neg hyz, if_neg hzy] at hbc ⊢
                exact ih ys zs hab hbc

theorem stringLe_total (a b : String) : stringLe a b = true ∨ stringLe b a = true :=
  charListLe_total a.data b.data

theorem stringLe_trans {a b c : String} (h1 : stringLe a b = true) (h2 : stringLe b c = true) :
    stringLe a c = true :=
  charListLe_trans a.data b.data c.data h1 h2

theorem pairwise_insertSorted (x : String) (l : List String)
    (h : List.Pairwise (fun a b => stringLe a b = true) l) :
    List.Pairwise (fun a b => stringLe a b = true) (insertSorted x l) := by
  induction l with
  | nil => simp [insertSorted]
  | cons y ys ih =>
    by_cases hxy : stringLe x y
    · simp only [insertSorted, if_pos hxy]
      refine List.Pairwise.cons ?_ h
      intro z hz
      rcases List.mem_cons.mp hz with rfl | hz
      · exact hxy
      · exact stringLe_trans hxy ((List.pairwise_cons.mp h).1 z hz)
    · simp only [insertSorted, if_neg hxy]
      refine List.Pairwise.cons ?_ (ih (List.pairwise_cons.mp h).2)
      intro z hz
      rcases (mem_insertSorted x z ys).mp hz with rfl | hz
      · rcases stringLe_total z y with hzy | hyz
        · exact absurd hzy hxy
        · exact hyz
      · exact (List.pairwise_cons.mp h).1 z hz

theorem pairwise_sortStrings (l : List String) :
    List.Pairwise (fun a b => stringLe a b = true) (sortStrings l) := by
  induction l with
  | nil => exact List.Pairwise.nil
  | cons z zs ih => exact pairwise_insertSorted z (sortStrings zs) ih

theorem length_insertSorted (x : String) (l : List String) :
    (insertSorted x l).length = l.length + 1 := by
  induction l with
  | nil => rfl
  | cons y ys ih =>
    by_cases h : stringLe x y
    · simp [insertSorted, if_pos h]
    · simp [insertSorted, if_neg h, ih]

theorem length_sortStrings (l : List String) : (sortStrings l).length = l.length := by
  induction l with
  | nil => rfl
  | cons z zs ih => simp [sortStrings, length_insertSorted, ih]

theorem toFinset_dedupLast (l : List String) : (dedupLast l).toFinset = l.toFinset := by
  ext x
  simp [List.mem_toFinset, mem_dedupLast]

theorem length_uniqueFailedFiles (l : List String) :
    (uniqueFailedFiles l).length = l.toFinset.card := by
  rw [uniqueFailedFiles, length_sortStrings, ← toFinset_dedupLast,
    List.toFinset_card_of_nodup (nodup_dedupLast l)]

/-! ### The directory orchestrator `rename_images_in_directory` (lines 225-334)

External effects are an environment of oracles: `loadOk` is `Image.open`
success (line 253), `batchApi i` is the value returned by
`get_batch_info_from_images` for the `i`-th batch (`none` for `None`; the
returned dict is an association list built from the response's description
entries, later entries overwriting earlier ones), `renameOk` injects
spontaneous `os.rename` failures in the batch rename path (line 297's
`except`), and `retryEnv`/`tempId` supply the per-file recovery-flow oracles.
Python's `if result_map:` treats an empty dict like `None`, hence the
`isEmpty` branch.  The inter-batch sleep (lines 307-309) has no effect on the
modelled state and is omitted. -/

def dictLookup : List (String × String) → String → Option String
  | [], _ => none
  | (k, v) :: rest, x =>
    match dictLookup rest x with
    | some w => some w
    | none => if k = x then some v else none

structure OrchestratorEnv where
  loadOk : String → Bool
  batchApi : Nat → Option (List (String × String))
  renameOk : String → Bool
  retryEnv : String → RetryEnv
  tempId : String → String

/-- Lines 275-288: sanitize the title, build `base + "_DESC" + ext`, pick the
first conflict-free name, and rename. -/
def renameWithTitle (d : Dir) (f t : String) : Option Dir :=
  renameFile d f
    (chooseNewName (dirNames d) (sanitize t ++ PROCESSED_SUFFIX) (splitext f).2)

/-- Lines 265-299: the per-file loop over the loaded batch, given the result
map; a file missing from the map, a spontaneous rename error, or a missing
source all append the file to the failure list. -/
def processBatchFiles (renameOk : String → Bool) (m : List (String × String)) :
    List String → Dir → Nat → List String → Dir × Nat × List String
  | [], d, c, fl => (d, c, fl)
  | f :: rest, d, c, fl =>
    match dictLookup m f with
    | none => processBatchFiles renameOk m rest d c (fl ++ [f])
    | some t =>
      if renameOk f then
        match renameWithTitle d f t with
        | some d2 => processBatchFiles renameOk m rest d2 (c + 1) fl
        | none => processBatchFiles renameOk m rest d c (fl ++ [f])
      else processBatchFiles renameOk m rest d c (fl ++ [f])

/-- Lines 249-302: one iteration of the batch loop: load the images (load
failures go straight to the failure list), call the batch flow unless nothing
loaded, and either process the result map or extend the failure list with the
whole slice (`current_batch_files`, duplicating any load failures). -/
def processChunk (env : OrchestratorEnv) (i : Nat) (d : Dir) (batchFiles : List String) :
    Dir × Nat × List String :=
  if (batchFiles.filter env.loadOk).isEmpty then
    (d, 0, batchFiles.filter fun f => ! env.loadOk f)
  else
    match env.batchApi i with
    | some m =>
      if m.isEmpty then (d, 0, (batchFiles.filter fun f => ! env.loadOk f) ++ batchFiles)
      else
        processBatchFiles env.renameOk m (batchFiles.filter env.loadOk) d 0
          (batchFiles.filter fun f => ! env.loadOk f)
    | none => (d, 0, (batchFiles.filter fun f => ! env.loadOk f) ++ batchFiles)

/-- The slices `all_files[file_index : file_index + BATCH_SIZE]` of the while
loop at line 245, with the list length as fuel. -/
def chunksAux : Nat → List String → List (List String)
  | 0, _ => []
  | _ + 1, [] => []
  | fuel + 1, x :: xs => ((x :: xs).take BATCH_SIZE) :: chunksAux fuel ((x :: xs).drop BATCH_SIZE)

def chunksOf (l : List String) : List (List String) := chunksAux l.length l

def runChunks (env : OrchestratorEnv) : List (List String) → Nat → Dir → Dir × Nat × List String
  | [], _, d => (d, 0, [])
  | ch :: rest, i, d =>
    match processChunk env i d ch with
    | (d1, c1, f1) =>
      match runChunks env rest (i + 1) d1 with
      | (d2, c2, f2) => (d2, c1 + c2, f1 ++ f2)

/-- Lines 317-321: one `retry_failed_file` call per unique failed filename,
counting successes. -/
def runRetries (env : OrchestratorEnv) : List String → Dir → Dir × Nat
  | [], d => (d, 0)
  | f :: rest, d =>
    match retryFailedFile (env.retryEnv f) d f (env.tempId f) with
    | (r, d1) =>
      match runRetries env rest d1 with
      | (d2, c) => (d2, (if r = RetryOutcome.success then 1 else 0) + c)

structure RunStats where
  totalEligibleFiles : Nat
  batchProcessedCount : Nat
  retryProcessedCount : Nat
  totalFailed : Nat
deriving DecidableEq

def renameImagesInDirectory (env : OrchestratorEnv) (d : Dir) : RunStats × Dir :=
  match runChunks env (chunksOf ((dirNames d).filter isEligible)) 0 d with
  | (d1, bc, failed) =>
    match runRetries env (uniqueFailedFiles failed) d1 with
    | (d2, rc) =>
      ({ totalEligibleFiles := ((dirNames d).filter isEligible).length,
         batchProcessedCount := bc,
         retryProcessedCount := rc,
         totalFailed := ((dirNames d).filter isEligible).length - (bc + rc) }, d2)

/-- **C8, counterexample.** The claim says the failure set is preserved in its
original accumulation order; the code sorts it (`sorted(list(set(...)))`), so
the accumulation order `["b.jpg", "a.jpg"]` comes out as
`["a.jpg", "b.jpg"]`. -/
theorem failureSet_order_cex :
    uniqueFailedFiles ["b.jpg", "a.jpg"] = ["a.jpg", "b.jpg"] ∧
    (["a.jpg", "b.jpg"] : List String) ≠ ["b.jpg", "a.jpg"] :=
  ⟨rfl, by decide⟩

/-- **C8, amended.** The failure set consumed by the recovery loop is the
accumulated failure list with duplicates removed, sorted in ascending
code-point lexicographic order (not accumulation order); it contains exactly
the accumulated filenames, and each appears exactly once, so each is passed
to the single-file recovery flow exactly once by the retry loop. -/
theorem failureSet_dedup_sorted (l : List String) :
    (uniqueFailedFiles l).Nodup ∧
    List.Pairwise (fun a b => stringLe a b = true) (uniqueFailedFiles l) ∧
    (∀ x, x ∈ uniqueFailedFiles l ↔ x ∈ l) ∧
    (∀ x ∈ l, (uniqueFailedFiles l).count x = 1) := by
  have hnodup : (uniqueFailedFiles l).Nodup :=
    nodup_sortStrings (dedupLast l) (nodup_dedupLast l)
  have hmem : ∀ x, x ∈ uniqueFailedFiles l ↔ x ∈ l := fun x =>
    (mem_sortStrings (dedupLast l) x).trans (mem_dedupLast l x)
  refine ⟨hnodup, pairwise_sortStrings (dedupLast l), hmem, ?_⟩
  intro x hx
  exact List.count_eq_one_of_mem hnodup ((hmem x).mpr hx)

theorem failureSet_dedup_sorted_witness :
    (uniqueFailedFiles ["b.jpg", "a.jpg", "b.jpg"]).count "b.jpg" = 1 :=
  (failureSet_dedup_sorted ["b.jpg", "a.jpg", "b.jpg"]).2.2.2 "b.jpg" (by decide)

/-! ### The completion tally (lines 327-333)

`total_renamed = batch + retry` and
`total_failed = total_eligible - total_renamed`; the content of the tally
invariant is that the two renamed counts never exceed the eligible count:
every batch rename consumes a distinct file of its slice, failure-list
entries are files of their slice, and the retry count is bounded by the
deduplicated failure list. -/

theorem toFinset_append_card_le (a b : List String) :
    (a ++ b).toFinset.card ≤ a.toFinset.card + b.toFinset.card := by
  rw [List.toFinset_append]
  exact Finset.card_union_le a.toFinset b.toFinset

theorem toFinset_snoc_card_le (fl : List String) (f : String) :
    (fl ++ [f]).toFinset.card ≤ fl.toFinset.card + 1 := by
  have := toFinset_append_card_le fl [f]
  simpa using this

theorem processBatchFiles_cons_missing {m : List (String × String)} {f : String}
    (ok : String → Bool) (rest : List String) (d : Dir) (c : Nat) (fl : List String)
    (hdl : dictLookup m f = none) :
    processBatchFiles ok m (f :: rest) d c fl
      = processBatchFiles ok m rest d c (fl ++ [f]) := by
  simp [processBatchFiles, hdl]

theorem processBatchFiles_cons_renamed {ok : String → Bool} {m : List (String × String)}
    {f t : String} {d d2 : Dir} (rest : List String) (c : Nat) (fl : List String)
    (hdl : dictLookup m f = some t) (hok : ok f = true)
    (hrw : renameWithTitle d f t = some d2) :
    processBatchFiles ok m (f :: rest) d c fl
      = processBatchFiles ok m rest d2 (c + 1) fl := by
  simp [processBatchFiles, hdl, hok, hrw]

theorem processBatchFiles_cons_renameErr {ok : String → Bool} {m : List (String × String)}
    {f t : String} {d : Dir} (rest : List String) (c : Nat) (fl : List String)
    (hdl : dictLookup m f = some t) (hok : ok f = true)
    (hrw : renameWithTitle d f t = none) :
    processBatchFiles ok m (f :: rest) d c fl
      = processBatchFiles ok m rest d c (fl ++ [f]) := by
  simp [processBatchFiles, hdl, hok, hrw]

theorem processBatchFiles_cons_renameOkFalse {ok : String → Bool}
    {m : List (String × String)} {f t : String} {d : Dir}
    (rest : List String) (c : Nat) (fl : List String)
    (hdl : dictLookup m f = some t) (hok : ok f = false) :
    processBatchFiles ok m (f :: rest) d c fl
      = processBatchFiles ok m rest d c (fl ++ [f]) := by
  simp [processBatchFiles, hdl, hok]

theorem processBatchFiles_card (ok : String → Bool) (m : List (String × String)) :
    ∀ (files : List String) (d : Dir) (c : Nat) (fl : List String),
      (processBatchFiles ok m files d c fl).2.1
          + (processBatchFiles ok m files d c fl).2.2.toFinset.card
        ≤ c + fl.toFinset.card + files.length := by
  intro files
  induction files with
  | nil =>
    intro d c fl
    simp only [processBatchFiles, List.length_nil, Nat.add_zero]
    have := fl.toFinset_card_le
    omega
  | cons f rest ih =>
    intro d c fl
    have hsnoc := toFinset_snoc_card_le fl f
    cases hdl : dictLookup m f with
    | none =>
      rw [processBatchFiles_cons_missing ok rest d c fl hdl]
      have := ih d c (fl ++ [f])
      simp only [List.length_cons]
      omega
    | some t =>
      cases hok : ok f with
      | true =>
        cases hrw : renameWithTitle d f t with
        | some d2 =>
          rw [processBatchFiles_cons_renamed rest c fl hdl hok hrw]
          have := ih d2 (c + 1) fl
          simp only [List.length_cons]
          omega
        | none =>
          rw [processBatchFiles_cons_renameErr rest c fl hdl hok hrw]
          have := ih d c (fl ++ [f])
          simp only [List.length_cons]
          omega
      | false =>
        rw [processBatchFiles_cons_renameOkFalse rest c fl hdl hok]
        have := ih d c (fl ++ [f])
        simp only [List.length_cons]
        omega

theorem length_filter_split (p : String → Bool) (l : List String) :
    (l.filter p).length + (l.filter fun x => ! p x).length = l.length := by
  induction l with
  | nil => rfl
  | cons x xs ih =>
    cases h : p x <;> simp [List.filter_cons, h, ← ih] <;> omega

theorem toFinset_filter_append (p : String → Bool) (l : List String) :
    ((l.filter p) ++ l).toFinset = l.toFinset := by
  ext x
  simp only [List.toFinset_append, Finset.mem_union, List.mem_toFinset]
  constructor
  · rintro (hx | hx)
    · exact List.mem_of_mem_filter hx
    · exact hx
  · exact Or.inr

theorem processChunk_noLoad (env : OrchestratorEnv) (i : Nat) (d : Dir) (ch : List String)
    (hempty : (ch.filter env.loadOk).isEmpty = true) :
    processChunk env i d ch = (d, 0, ch.filter fun f => ! env.loadOk f) := by
  simp [processChunk, hempty]

theorem processChunk_apiFail (env : OrchestratorEnv) (i : Nat) (d : Dir) (ch : List String)
    (hempty : ¬ (ch.filter env.loadOk).isEmpty = true)
    (hapi : env.batchApi i = none) :
    processChunk env i d ch = (d, 0, (ch.filter fun f => ! env.loadOk f) ++ ch) := by
  simp [processChunk, hempty, hapi]

theorem processChunk_emptyMap (env : OrchestratorEnv) (i : Nat) (d : Dir) (ch : List String)
    {m : List (String × String)}
    (hempty : ¬ (ch.filter env.loadOk).isEmpty = true)
    (hapi : env.batchApi i = some m) (hm : m.isEmpty = true) :
    processChunk env i d ch = (d, 0, (ch.filter fun f => ! env.loadOk f) ++ ch) := by
  simp [processChunk, hempty, hapi, hm]

theorem processChunk_proc (env : OrchestratorEnv) (i : Nat) (d : Dir) (ch : List String)
    {m : List (String × String)}
    (hempty : ¬ (ch.filter env.loadOk).isEmpty = true)
    (hapi : env.batchApi i = some m) (hm : ¬ m.isEmpty = true) :
    processChunk env i d ch
      = processBatchFiles env.renameOk m (ch.filter env.loadOk) d 0
          (ch.filter fun f => ! env.loadOk f) := by
  simp [processChunk, hempty, hapi, hm]

theorem processChunk_card (env : OrchestratorEnv) (i : Nat) (d : Dir) (ch : List String) :
    (processChunk env i d ch).2.1 + (processChunk env i d ch).2.2.toFinset.card
      ≤ ch.length := by
  have hsplit := length_filter_split env.loadOk ch
  by_cases hempty : (ch.filter env.loadOk).isEmpty = true
  · rw [processChunk_noLoad env i d ch hempty]
    have h1 := (ch.filter fun f => ! env.loadOk f).toFinset_card_le
    have h2 := List.length_filter_le (fun f => ! env.loadOk f) ch
    simpa using le_trans h1 h2
  · cases hapi : env.batchApi i with
    | none =>
      rw [processChunk_apiFail env i d ch hempty hapi]
      simp only []
      rw [toFinset_filter_append]
      have := ch.toFinset_card_le
      omega
    | some m =>
      by_cases hm : m.isEmpty = true
      · rw [processChunk_emptyMap env i d ch hempty hapi hm]
        simp only []
        rw [toFinset_filter_append]
        have := ch.toFinset_card_le
        omega
      · rw [processChunk_proc env i d ch hempty hapi hm]
        have := processBatchFiles_card env.renameOk m (ch.filter env.loadOk) d 0
          (ch.filter fun f => ! env.loadOk f)
        have h1 := (ch.filter fun f => ! env.loadOk f).toFinset_card_le
        omega

theorem runChunks_card (env : OrchestratorEnv) :
    ∀ (chs : List (List String)) (i : Nat) (d : Dir),
      (runChunks env chs i d).2.1 + (runChunks env chs i d).2.2.toFinset.card
        ≤ (chs.map List.length).sum := by
  intro chs
  induction chs with
  | nil => intro i d; simp [runChunks]
  | cons ch rest ih =>
    intro i d
    rcases h1 : processChunk env i d ch with ⟨d1, c1, f1⟩
    rcases h2 : runChunks env rest (i + 1) d1 with ⟨d2, c2, f2⟩
    have hch := processChunk_card env i d ch
    rw [h1] at hch
    have hrest := ih (i + 1) d1
    rw [h2] at hrest
    have happ := toFinset_append_card_le f1 f2
    simp only [runChunks, h1, h2, List.map_cons, List.sum_cons]
    simp only at hch hrest
    omega

theorem runRetries_le (env : OrchestratorEnv) :
    ∀ (lst : List String) (d : Dir), (runRetries env lst d).2 ≤ lst.length := by
  intro lst
  induction lst with
  | nil => intro d; simp [runRetries]
  | cons f rest ih =>
    intro d
    rcases h1 : retryFailedFile (env.retryEnv f) d f (env.tempId f) with ⟨r, d1⟩
    rcases h2 : runRetries env rest d1 with ⟨d2, c⟩
    have := ih d1
    rw [h2] at this
    simp only [runRetries, h1, h2, List.length_cons]
    by_cases hr : r = RetryOutcome.success
    · simp only [if_pos hr]
      omega
    · simp only [if_neg hr]
      omega

theorem chunksAux_flatten : ∀ (fuel : Nat) (l : List String), l.length ≤ fuel →
    (chunksAux fuel l).flatten = l := by
  intro fuel
  induction fuel with
  | zero =>
    intro l hl
    have : l = [] := List.length_eq_zero.mp (by omega)
    subst this
    rfl
  | succ fuel ih =>
    intro l hl
    cases l with
    | nil => rfl
    | cons x xs =>
      simp only [chunksAux, List.flatten_cons]
      have hdrop : ((x :: xs).drop BATCH_SIZE).length ≤ fuel := by
        simp only [List.length_cons] at hl
        simp only [List.length_drop, List.length_cons, BATCH_SIZE]
        omega
      rw [ih ((x :: xs).drop BATCH_SIZE) hdrop]
      exact List.take_append_drop BATCH_SIZE (x :: xs)

theorem chunksOf_length_sum (l : List String) :
    ((chunksOf l).map List.length).sum = l.length := by
  have := chunksAux_flatten l.length l (le_refl _)
  have hlen := congrArg List.length this
  rw [List.length_flatten] at hlen
  exact hlen

/-- **C2.** For every run of the directory orchestrator, at completion the
count of eligible files equals the count renamed by the batch loop plus the
count renamed by the individual retry loop plus the reported untouched count
(and the two renamed counts never exceed the eligible count, so the
subtraction computing the untouched count does not truncate). -/
theorem orchestrator_tally (env : OrchestratorEnv) (d : Dir) :
    (renameImagesInDirectory env d).1.totalEligibleFiles
        = (renameImagesInDirectory env d).1.batchProcessedCount
          + (renameImagesInDirectory env d).1.retryProcessedCount
          + (renameImagesInDirectory env d).1.totalFailed ∧
    (renameImagesInDirectory env d).1.batchProcessedCount
        + (renameImagesInDirectory env d).1.retryProcessedCount
      ≤ (renameImagesInDirectory env d).1.totalEligibleFiles := by
  rcases hrc : runChunks env (chunksOf ((dirNames d).filter isEligible)) 0 d
    with ⟨d1, bc, failed⟩
  rcases hrr : runRetries env (uniqueFailedFiles failed) d1 with ⟨d2, rc⟩
  have hcard := runChunks_card env (chunksOf ((dirNames d).filter isEligible)) 0 d
  rw [hrc, chunksOf_length_sum] at hcard
  have hretry := runRetries_le env (uniqueFailedFiles failed) d1
  rw [hrr, length_uniqueFailedFiles] at hretry
  simp only [renameImagesInDirectory, hrc, hrr]
  simp only at hcard
  constructor
  · omega
  · omega

/-! ### Exact per-batch behaviour when the result map omits one filename -/

theorem mem_lookup_exists {d : Dir} {x : String} (h : x ∈ dirNames d) :
    ∃ i, lookupName d x = some i := by
  induction d with
  | nil => simp [dirNames] at h
  | cons e rest ih =>
    obtain ⟨n, j⟩ := e
    by_cases hn : n = x
    · exact ⟨j, by simp [lookupName, hn]⟩
    · simp only [dirNames, List.map_cons, List.mem_cons] at h
      rcases h with rfl | h
      · exact absurd rfl hn
      · obtain ⟨i, hi⟩ := ih h
        exact ⟨i, by simp [lookupName, hn, hi]⟩

theorem mem_removeName_of_ne {d : Dir} {g y : String} (hg : g ∈ dirNames d) (hne : g ≠ y) :
    g ∈ dirNames (removeName d y) := by
  simp only [dirNames, List.mem_map] at hg ⊢
  obtain ⟨e, he, rfl⟩ := hg
  exact ⟨e, List.mem_filter.mpr ⟨he, by simpa using hne⟩, rfl⟩

theorem renameWithTitle_ok {d : Dir} {f : String} (t : String) (hf : f ∈ dirNames d) :
    ∃ d2, renameWithTitle d f t = some d2 ∧
      ∀ g ∈ dirNames d, g ≠ f → g ∈ dirNames d2 := by
  obtain ⟨i, hi⟩ := mem_lookup_exists hf
  have hnew : chooseNewName (dirNames d) (sanitize t ++ PROCESSED_SUFFIX) (splitext f).2
      ∉ dirNames d := chooseNewName_not_mem _ _ _
  refine ⟨(chooseNewName (dirNames d) (sanitize t ++ PROCESSED_SUFFIX) (splitext f).2, i)
      :: removeName (removeName d f)
        (chooseNewName (dirNames d) (sanitize t ++ PROCESSED_SUFFIX) (splitext f).2),
    by simp [renameWithTitle, renameFile, hi], ?_⟩
  intro g hg hgf
  simp only [dirNames, List.map_cons, List.mem_cons]
  right
  exact mem_removeName_of_ne (mem_removeName_of_ne hg hgf) (fun hEq => hnew (hEq ▸ hg))

theorem processBatchFiles_exact (ok : String → Bool) (m : List (String × String)) (x : String)
    (hmiss : dictLookup m x = none) :
    ∀ (files : List String) (d : Dir) (c : Nat) (fl : List String),
      files.Nodup →
      (∀ f ∈ files, f ∈ dirNames d) →
      (∀ f ∈ files, f ≠ x → (dictLookup m f).isSome) →
      (∀ f ∈ files, ok f = true) →
      (x ∈ files →
        (processBatchFiles ok m files d c fl).2.2 = fl ++ [x] ∧
        (processBatchFiles ok m files d c fl).2.1 = c + (files.length - 1)) ∧
      (x ∉ files →
        (processBatchFiles ok m files d c fl).2.2 = fl ∧
        (processBatchFiles ok m files d c fl).2.1 = c + files.length) := by
  intro files
  induction files with
  | nil =>
    intro d c fl _ _ _ _
    exact ⟨fun hx => absurd hx (List.not_mem_nil x), fun _ => ⟨rfl, rfl⟩⟩
  | cons f rest ih =>
    intro d c fl hnodup hmem hsome hok
    by_cases hfx : f = x
    · subst hfx
      have hstep := processBatchFiles_cons_missing ok rest d c fl hmiss
      have hxrest : f ∉ rest := (List.nodup_cons.mp hnodup).1
      have hrec := ih d c (fl ++ [f]) (List.nodup_cons.mp hnodup).2
        (fun g hg => hmem g (List.mem_cons_of_mem f hg))
        (fun g hg hgx => hsome g (List.mem_cons_of_mem f hg) hgx)
        (fun g hg => hok g (List.mem_cons_of_mem f hg))
      constructor
      · intro _
        rw [hstep]
        refine ⟨(hrec.2 hxrest).1, ?_⟩
        rw [(hrec.2 hxrest).2]
        simp [List.length_cons]
      · intro hx
        exact absurd (List.mem_cons_self f rest) hx
    · have ht := hsome f (List.mem_cons_self f rest) hfx
      obtain ⟨t, hdl⟩ := Option.isSome_iff_exists.mp ht
      have hokf := hok f (List.mem_cons_self f rest)
      obtain ⟨d2, hrw, hpres⟩ := renameWithTitle_ok t (hmem f (List.mem_cons_self f rest))
      have hstep := processBatchFiles_cons_renamed rest c fl hdl hokf hrw
      have hfnotrest : f ∉ rest := (List.nodup_cons.mp hnodup).1
      have hrec := ih d2 (c + 1) fl (List.nodup_cons.mp hnodup).2
        (fun g hg => hpres g (hmem g (List.mem_cons_of_mem f hg))
          (fun hgf => hfnotrest (hgf ▸ hg)))
        (fun g hg hgx => hsome g (List.mem_cons_of_mem f hg) hgx)
        (fun g hg => hok g (List.mem_cons_of_mem f hg))
      constructor
      · intro hx
        have hxrest : x ∈ rest := by
          rcases List.mem_cons.mp hx with rfl | hx
          · exact absurd rfl hfx
          · exact hx
        rw [hstep]
        refine ⟨(hrec.1 hxrest).1, ?_⟩
        rw [(hrec.1 hxrest).2]
        have : rest.length ≥ 1 := List.length_pos.mpr (List.ne_nil_of_mem hxrest)
        simp only [List.length_cons]
        omega
      · intro hx
        have hxrest : x ∉ rest := fun hr => hx (List.mem_cons_of_mem f hr)
        rw [hstep]
        refine ⟨(hrec.2 hxrest).1, ?_⟩
        rw [(hrec.2 hxrest).2]
        simp only [List.length_cons]
        omega

/-- **C5.** For a batch whose description mapping omits exactly one of the
batch's filenames, that filename — and no other filename of the batch — is
appended to the failure list, and every remaining file of the batch is still
sanitized and renamed (the batch rename counter accounts for all of them),
independent of the omitted file. -/
theorem batch_missing_one (env : OrchestratorEnv) (i : Nat) (d : Dir) (ch : List String)
    (m : List (String × String)) (x : String)
    (hnodup : ch.Nodup)
    (hload : ∀ f ∈ ch, env.loadOk f = true)
    (hapi : env.batchApi i = some m)
    (hm : m ≠ [])
    (hx : x ∈ ch)
    (hmiss : dictLookup m x = none)
    (hothers : ∀ f ∈ ch, f ≠ x → (dictLookup m f).isSome)
    (hren : ∀ f ∈ ch, env.renameOk f = true)
    (hind : ∀ f ∈ ch, f ∈ dirNames d) :
    (processChunk env i d ch).2.2 = [x] ∧
    (processChunk env i d ch).2.1 + 1 = ch.length := by
  have hfilter : ch.filter env.loadOk = ch := List.filter_eq_self.mpr hload
  have hfailedLoad : (ch.filter fun f => ! env.loadOk f) = [] := by
    rw [List.filter_eq_nil_iff]
    intro a ha
    simp [hload a ha]
  have hne : ¬ (ch.filter env.loadOk).isEmpty = true := by
    rw [hfilter]
    cases ch with
    | nil => cases hx
    | cons y ys => simp
  have hmne : ¬ m.isEmpty = true := by
    cases m with
    | nil => exact absurd rfl hm
    | cons p ps => simp
  rw [processChunk_proc env i d ch hne hapi hmne, hfilter, hfailedLoad]
  have hmain := (processBatchFiles_exact env.renameOk m x hmiss ch d 0 []
    hnodup hind hothers hren).1 hx
  refine ⟨by simpa using hmain.1, ?_⟩
  rw [hmain.2]
  have : ch.length ≥ 1 := List.length_pos.mpr (List.ne_nil_of_mem hx)
  omega

def envC5 : OrchestratorEnv :=
  { loadOk := fun _ => true
    batchApi := fun _ => some [("a.jpg", "Nice Cat")]
    renameOk := fun _ => true
    retryEnv := fun _ => ⟨fun _ => false, none⟩
    tempId := fun _ => "ab12cd34" }

theorem batch_missing_one_witness :
    (processChunk envC5 0 [("a.jpg", 0), ("b.jpg", 1)] ["a.jpg", "b.jpg"]).2.2 = ["b.jpg"] ∧
    (processChunk envC5 0 [("a.jpg", 0), ("b.jpg", 1)] ["a.jpg", "b.jpg"]).2.1 + 1 = 2 :=
  batch_missing_one envC5 0 [("a.jpg", 0), ("b.jpg", 1)] ["a.jpg", "b.jpg"]
    [("a.jpg", "Nice Cat")] "b.jpg" (by decide) (by decide) rfl (by decide) (by decide)
    rfl (by decide) (by decide) (by decide)

/-! ### Empty sanitized titles still rename (lines 276-295 and 194-212)

Neither rename path checks that the sanitized title is nonempty, so a title
consisting only of punctuation yields the base name `"" + "_DESC"` and the
file is renamed to `_DESC<ext>` (with the counter on collision). -/

theorem empty_append_processed : ("" : String) ++ PROCESSED_SUFFIX = PROCESSED_SUFFIX := rfl

theorem chooseNewName_free_head (existing : List String) (b e : String)
    (h : b ++ e ∉ existing) : chooseNewName existing b e = b ++ e :=
  chooseNewName_eq_of existing b e 0 h (fun m hm => absurd hm (Nat.not_lt_zero m))

/-- **C10.** If the remote title sanitizes to the empty string, both the batch
rename path and the recovery flow still rename the file rather than treating
it as a failure: the new name is the processed marker plus the original
extension (`_DESC` + ext), and on collision the numeric counter is appended
(`_DESC_1` + ext). -/
theorem emptyTitle_still_renames :
    (∀ (d : Dir) (f t : String) (i : Nat), sanitize t = "" → lookupName d f = some i →
      PROCESSED_SUFFIX ++ (splitext f).2 ∉ dirNames d →
      ∃ d2, renameWithTitle d f t = some d2 ∧
        lookupName d2 (PROCESSED_SUFFIX ++ (splitext f).2) = some i) ∧
    (∀ (env : RetryEnv) (d : Dir) (orig tempId t : String) (i : Nat),
      env.apiTitle = some t → t ≠ "" → sanitize t = "" →
      env.fsFail 0 = false → env.fsFail 1 = false →
      lookupName d orig = some i →
      tempName orig tempId ∉ dirNames d →
      PROCESSED_SUFFIX ++ (splitext orig).2 ∉ dirNames d →
      PROCESSED_SUFFIX ++ (splitext orig).2 ≠ tempName orig tempId →
      (retryFailedFile env d orig tempId).1 = RetryOutcome.success ∧
      lookupName (retryFailedFile env d orig tempId).2
        (PROCESSED_SUFFIX ++ (splitext orig).2) = some i) ∧
    (∀ (existing : List String) (ext : String),
      PROCESSED_SUFFIX ++ ext ∈ existing →
      candidateName PROCESSED_SUFFIX ext 1 ∉ existing →
      chooseNewName existing PROCESSED_SUFFIX ext
        = PROCESSED_SUFFIX ++ "_" ++ natRepr 1 ++ ext) := by
  refine ⟨?_, ?_, ?_⟩
  · intro d f t i hst hf hfree
    have hchoose : chooseNewName (dirNames d) (sanitize t ++ PROCESSED_SUFFIX) (splitext f).2
        = PROCESSED_SUFFIX ++ (splitext f).2 := by
      rw [hst, empty_append_processed]
      exact chooseNewName_free_head _ _ _ hfree
    refine ⟨(PROCESSED_SUFFIX ++ (splitext f).2, i)
        :: removeName (removeName d f) (PROCESSED_SUFFIX ++ (splitext f).2), ?_, ?_⟩
    · simp [renameWithTitle, hchoose, renameFile, hf]
    · simp [lookupName]
  · intro env d orig tempId t i happ ht hst hf0 hf1 horig hfresh hfree hneq
    have h1 : osRename (env.fsFail 0) d orig (tempName orig tempId)
        = some ((tempName orig tempId, i) :: removeName d orig) := by
      rw [hf0]
      simpa [osRename] using isolate_step horig hfresh
    have h2 : requestedTitle env.apiTitle = some t := by
      rw [happ]
      simp [requestedTitle, ht]
    have hchoose : chooseNewName (dirNames ((tempName orig tempId, i) :: removeName d orig))
        (sanitize t ++ PROCESSED_SUFFIX) (splitext orig).2
        = PROCESSED_SUFFIX ++ (splitext orig).2 := by
      rw [hst, empty_append_processed]
      apply chooseNewName_free_head
      intro hmem
      simp only [dirNames, List.map_cons, List.mem_cons] at hmem
      rcases hmem with heq | hmem
      · exact hneq heq
      · exact hfree (names_removeName_subset d orig hmem)
    have h4 : osRename (env.fsFail 1) ((tempName orig tempId, i) :: removeName d orig)
        (tempName orig tempId) (PROCESSED_SUFFIX ++ (splitext orig).2)
        = some ((PROCESSED_SUFFIX ++ (splitext orig).2, i)
            :: removeName (removeName ((tempName orig tempId, i) :: removeName d orig)
              (tempName orig tempId)) (PROCESSED_SUFFIX ++ (splitext orig).2)) := by
      rw [hf1]
      simp [osRename, renameFile, lookupName]
    have hflow : retryFailedFile env d orig tempId
        = (RetryOutcome.success, (PROCESSED_SUFFIX ++ (splitext orig).2, i)
            :: removeName (removeName ((tempName orig tempId, i) :: removeName d orig)
              (tempName orig tempId)) (PROCESSED_SUFFIX ++ (splitext orig).2)) := by
      simp only [retryFailedFile, h1, h2, hchoose, h4]
    rw [hflow]
    exact ⟨rfl, by simp [lookupName]⟩
  · intro existing ext hcoll hfree1
    apply chooseNewName_eq_of existing PROCESSED_SUFFIX ext 1 hfree1
    intro mm hmm
    have : mm = 0 := by omega
    subst this
    exact hcoll

theorem emptyTitle_still_renames_witness :
    (retryFailedFile ⟨fun _ => false, some "!!!"⟩ [("cat.jpg", 0)] "cat.jpg" "ab12cd34").1
        = RetryOutcome.success ∧
    lookupName (retryFailedFile ⟨fun _ => false, some "!!!"⟩ [("cat.jpg", 0)]
        "cat.jpg" "ab12cd34").2 "_DESC.jpg" = some 0 :=
  emptyTitle_still_renames.2.1 ⟨fun _ => false, some "!!!"⟩ [("cat.jpg", 0)]
    "cat.jpg" "ab12cd34" "!!!" 0 rfl (by decide) rfl rfl rfl (by decide) (by decide)
    (by decide) (by decide)
